import Mathlib

/-!
Shallow embedding of `beancount/reports/convert_reports.py` (format
converter reports: Ledger and HLedger dialect printers), together with
proofs about its documented behaviour.

Python strings are modelled as Lean `String` / `List Char`; Python `None`
as `Option.none`; a Python `AttributeError` raised by dereferencing a
`None` position is modelled by an `Option`-valued result (`none` = the
exception propagates).  Decimal numbers are modelled as `Int` (the exact
decimal formatting lives in the external `beancount.core` modules and is
irrelevant to the claims, which are about line structure).
-/

set_option maxRecDepth 20000

namespace ConvertReports

/-! ### Basic data model (mirrors `beancount.core.data` / `position`) -/

/-- Calendar date, rendered as in Python `%Y/%m/%d`. -/
structure Date where
  year : Nat
  month : Nat
  day : Nat
deriving DecidableEq, Repr

/-- Amount: a number together with a commodity string.  The number is
modelled as `Int`; `beancount.core.amount.Amount`. -/
structure Amount where
  number : Int
  currency : String
deriving DecidableEq, Repr

/-- Lot of `beancount.core.position`: commodity, optional cost, optional
acquisition date. -/
structure Lot where
  currency : String
  cost : Option Amount
  lotDate : Option Date
deriving DecidableEq, Repr

/-- Position of `beancount.core.position`: a lot and a number of units. -/
structure Position where
  lot : Lot
  number : Int
deriving DecidableEq, Repr

/-- Posting of `beancount.core.data`.  The Python namedtuple carries a
back-reference `entry` to the owning transaction; in this embedding the
owning transaction is instead passed explicitly to the functions that
consult it (the only use of the back-reference in the source). -/
structure Posting where
  account : String
  position : Option Position
  price : Option Amount
  flag : Option String
deriving DecidableEq, Repr

/-- Transaction directive of `beancount.core.data`. -/
structure Transaction where
  date : Date
  flag : Option String
  payee : Option String
  narration : String
  tags : List String
  links : List String
  postings : List Posting
deriving DecidableEq, Repr

/-- Balance directive (fields unused by the printers). -/
structure Balance where
  date : Date
  account : String
  amount : Amount
deriving DecidableEq, Repr

/-- Open directive: account plus the allowed-currencies list ([] = no
restriction, the falsy case of Python `entry.currencies`). -/
structure Open where
  date : Date
  account : String
  currencies : List String
deriving DecidableEq, Repr

/-- Close directive. -/
structure Close where
  date : Date
  account : String
deriving DecidableEq, Repr

/-- Note directive. -/
structure Note where
  date : Date
  account : String
  comment : String
deriving DecidableEq, Repr

/-- Document directive. -/
structure Document where
  date : Date
  account : String
  filename : String
deriving DecidableEq, Repr

/-- Pad directive. -/
structure Pad where
  date : Date
  account : String
  source_account : String
deriving DecidableEq, Repr

/-- Price directive (named `PriceDir` to avoid clashing with posting
prices). -/
structure PriceDir where
  date : Date
  currency : String
  amount : Amount
deriving DecidableEq, Repr

/-- Event directive. -/
structure Event where
  date : Date
  type : String
  description : String
deriving DecidableEq, Repr

/-- Directive: the tagged union dispatched on by the printers. -/
inductive Directive where
  | transaction (t : Transaction)
  | balance (b : Balance)
  | openD (o : Open)
  | closeD (c : Close)
  | note (n : Note)
  | document (d : Document)
  | pad (p : Pad)
  | price (p : PriceDir)
  | event (e : Event)
deriving DecidableEq, Repr

/-! ### String helpers mirroring the Python formatting primitives -/

/-- Zero-padded decimal rendering of a `Nat`, as Python `%0Nd`. -/
def padNum (width n : Nat) : String :=
  let s := toString n
  String.mk (List.replicate (width - s.length) '0') ++ s

/-- Python `'\x7be.date:%Y/%m/%d\x7d'` date formatting. -/
def dateStr (d : Date) : String :=
  padNum 4 d.year ++ "/" ++ padNum 2 d.month ++ "/" ++ padNum 2 d.day

/-- Python `'\x7b:N\x7d'.format(s)`: left-justify to the given width. -/
def ljust (width : Nat) (s : String) : String :=
  s ++ String.mk (List.replicate (width - s.length) ' ')

/-- Python `'\x7b:>N\x7d'.format(s)`: right-justify to the given width. -/
def rjust (width : Nat) (s : String) : String :=
  String.mk (List.replicate (width - s.length) ' ') ++ s

/-- Python `str.rstrip()`: drop trailing whitespace. -/
def rstrip (s : String) : String :=
  String.mk (s.data.reverse.dropWhile Char.isWhitespace).reverse

/-- Python truthiness of an optional string (`None` and `''` are falsy);
used for `entry.flag or ''` and similar. -/
def optStr : Option String → String
  | none => ""
  | some s => s

/-- Python `'\x7b\x7d '.format(flag) if flag else ''` on an optional flag. -/
def pyFlagStr : Option String → String
  | none => ""
  | some s => if s.isEmpty then "" else s ++ " "

/-- Truthiness of an optional string: `None` and `''` are falsy. -/
def pyTruthy : Option String → Bool
  | none => false
  | some s => !s.isEmpty

/-- Rendering of an Amount, modelling `Amount.str(MAXDIGITS_PRINTER)` /
`str(amount)` of `beancount.core.amount` (number, space, currency). -/
def Amount.str (a : Amount) : String :=
  toString a.number ++ " " ++ a.currency

/-- Modelled from the spec: `Position.strs()` of `beancount.core.position`
(not under src/) returns the canonical two-part rendering: the units
amount string, and a brace-bracketed cost clause when held at cost
(spec section 4.4). -/
def Position.strs (pos : Position) : String × String :=
  (Amount.str ⟨pos.number, pos.lot.currency⟩,
   match pos.lot.cost with
   | some c => "\x7b" ++ Amount.str c ++ "\x7d"
   | none => "")

/-- Negation of a position (`-position` in Python negates the units). -/
def Position.neg (pos : Position) : Position :=
  ⟨pos.lot, -pos.number⟩

/-- Insertion step of string sorting. -/
def insertStr (x : String) : List String → List String
  | [] => [x]
  | y :: ys => if x < y then x :: y :: ys else y :: insertStr x ys

/-- Ascending sort of strings, modelling Python `sorted()`. -/
def sortStrings : List String → List String
  | [] => []
  | x :: xs => insertStr x (sortStrings xs)

/-! ### Currency quoter (`quote` / `quote_currency`)

The source applies the regular expression
`\b([A-Z][A-Z0-9'._-]\x7b0,10\x7d[A-Z0-9])\b` with `re.sub`, quoting each
matched token that contains a digit or a period.  The scan below is a
direct operational embedding of that regex engine behaviour: leftmost
scan, greedy middle run with backtracking on the final character class,
word-boundary checks on both sides, non-overlapping continuation after a
match. -/

/-- ASCII word character, Python regex `\w` (the inputs here are ASCII). -/
def isWordChar (c : Char) : Bool :=
  c.isUpper || c.isLower || c.isDigit || c == '_'

/-- First character class of the token pattern: `[A-Z]`. -/
def isCurrStart (c : Char) : Bool := c.isUpper

/-- Middle character class of the token pattern: `[A-Z0-9'._-]`. -/
def isCurrMid (c : Char) : Bool :=
  c.isUpper || c.isDigit || c == '\x27' || c == '.' || c == '_' || c == '-'

/-- Final character class of the token pattern: `[A-Z0-9]`. -/
def isCurrEnd (c : Char) : Bool := c.isUpper || c.isDigit

/-- The word boundary `\b` after position `i - 1` of `rest`, looking at
`rest[i]` (end of string or a non-word character). -/
def boundaryAt (rest : List Char) (i : Nat) : Bool :=
  match rest[i]? with
  | none => true
  | some c => !isWordChar c

/-- Does the token end at index `k` of `rest` (the `[A-Z0-9]` slot,
followed by a word boundary)? -/
def checkEndAt (rest : List Char) (k : Nat) : Bool :=
  match rest[k]? with
  | some c => isCurrEnd c && boundaryAt rest (k + 1)
  | none => false

/-- Backtracking loop of the greedy `\x7b0,10\x7d` quantifier: try the final
character class at index `k`, `k - 1`, ..., `0` of `rest`. -/
def findEnd (rest : List Char) : Nat → Option Nat
  | 0 => if checkEndAt rest 0 then some 0 else none
  | k + 1 => if checkEndAt rest (k + 1) then some (k + 1) else findEnd rest k

/-- Length of the run of middle-class characters at the head of `rest`. -/
def midRunLen (rest : List Char) : Nat :=
  (rest.takeWhile isCurrMid).length

/-- Attempt to match the token pattern at the head of `cs` (the caller has
already checked the left word boundary).  Returns the match length. -/
def tryMatch : List Char → Option Nat
  | [] => none
  | c :: rest =>
    if isCurrStart c then
      (findEnd rest (min 10 (midRunLen rest))).map (fun k => k + 2)
    else
      none

/-- The `quote` replacement callback: wrap the matched token in double
quotes iff it contains a digit or a period (`re.search(r'[0-9\.]', ...)`). -/
def quote (currency : List Char) : List Char :=
  if currency.any (fun c => c.isDigit || c == '.') then
    '"' :: (currency ++ ['"'])
  else
    currency

/-- The `re.sub` scan: fuel-indexed left-to-right scan over the character
list, `prevWord` recording whether the previous character was a word
character (for the left `\b`).  Fuel exhaustion returns the input
unchanged; `quote_currency` supplies enough fuel. -/
def quoteScan : Nat → Bool → List Char → List Char
  | 0, _, cs => cs
  | _ + 1, _, [] => []
  | fuel + 1, prevWord, c :: cs =>
    if !prevWord then
      match tryMatch (c :: cs) with
      | some len =>
        quote ((c :: cs).take len) ++ quoteScan fuel true ((c :: cs).drop len)
      | none => c :: quoteScan fuel (isWordChar c) cs
    else
      c :: quoteScan fuel (isWordChar c) cs

/-- `quote_currency` of the source: quote all the currencies with numbers
from the given string. -/
def quote_currency (s : String) : String :=
  String.mk (quoteScan s.data.length false s.data)

/-! ### Posting classifier (`postings_by_type`) -/

/-- Loop body of `postings_by_type`: split the postings into (simple,
at-price, at-cost), preserving order.  Accessing `posting.position.lot.cost`
on a posting with `position = None` raises `AttributeError` in Python,
modelled by `none`. -/
def classifyPostings : List Posting → Option (List Posting × List Posting × List Posting)
  | [] => some ([], [], [])
  | p :: ps =>
    match p.position with
    | none => none
    | some pos =>
      (classifyPostings ps).map fun (simple, atPrice, atCost) =>
        if pos.lot.cost.isSome then (simple, atPrice, p :: atCost)
        else if p.price.isSome then (simple, p :: atPrice, atCost)
        else (p :: simple, atPrice, atCost)

/-- `postings_by_type(entry)`: split up the postings by simple, at-cost,
at-price, returned as `(simple, at_price, at_cost)`. -/
def postings_by_type (entry : Transaction) : Option (List Posting × List Posting × List Posting) :=
  classifyPostings entry.postings

/-! ### `split_currency_conversions`

The helpers `interpolate.get_posting_weight` and `data.entry_replace` live
in `beancount.core` (not under src/): `entry_replace` is the namedtuple
field replacement, modelled as a Lean record update; `get_posting_weight`
is passed in as an explicit function argument, since only the weight's
currency and number flow into the result. -/

/-- The per-at-price-posting currency-conversion entry built in the loop of
`split_currency_conversions`: the original posting plus the negated
simple position, with the narration suffixed. -/
def currencyConversionEntry (getWeight : Posting → Amount) (entry : Transaction)
    (posting_orig : Posting) : Transaction :=
  let weight := getWeight posting_orig
  let simple_position : Position := ⟨⟨weight.currency, none, none⟩, weight.number⟩
  let posting_neg : Posting := ⟨posting_orig.account, some simple_position.neg, none, none⟩
  { entry with
    postings := [posting_orig, posting_neg],
    narration := entry.narration ++ " (Currency conversion)" }

/-- The replacement posting for an at-price posting: the positive simple
position on the same account. -/
def replacementPosting (getWeight : Posting → Amount) (posting_orig : Posting) : Posting :=
  let weight := getWeight posting_orig
  ⟨posting_orig.account, some ⟨⟨weight.currency, none, none⟩, weight.number⟩, none, none⟩

/-- `split_currency_conversions(entry)`: if the transaction has a mix of
conversion at cost and a currency conversion, split it.  Returns
`(converted, entries)`; Python returns the truthy/falsy value
`postings_at_cost and postings_at_price` for `converted`, modelled by the
corresponding `Bool`. -/
def split_currency_conversions (getWeight : Posting → Amount) (entry : Transaction) :
    Option (Bool × List Transaction) :=
  (postings_by_type entry).map fun (postings_simple, postings_at_price, postings_at_cost) =>
    let converted := !postings_at_cost.isEmpty && !postings_at_price.isEmpty
    if converted then
      let new_entries := postings_at_price.map (currencyConversionEntry getWeight entry)
      let replacement_postings := postings_at_price.map (replacementPosting getWeight)
      let converted_entry :=
        { entry with postings := postings_at_cost ++ postings_simple ++ replacement_postings }
      (true, new_entries ++ [converted_entry])
    else
      (false, [entry])

/-! ### Ledger printer (`LedgerPrinter`) -/

/-- The fixed reserved rounding account name. -/
def ROUNDING_ACCOUNT : String := "Equity:Rounding"

/-- Price-string selection of `LedgerPrinter.Posting` (source lines
196-209): an explicit price wins; otherwise classify the owning
transaction and synthesize `@ <cost>` on an at-cost posting when the
transaction also has at-price postings.  `none` models the Python
`AttributeError` cases (classification of a transaction containing a
position-less posting, or dereferencing this posting's absent position). -/
def ledgerPriceStr (entry : Transaction) (posting : Posting) : Option String :=
  match posting.price with
  | some price => some ("@ " ++ Amount.str price)
  | none =>
    match postings_by_type entry with
    | none => none
    | some (_, postings_at_price, postings_at_cost) =>
      if postings_at_price.isEmpty || postings_at_cost.isEmpty then some ""
      else
        match posting.position with
        | none => none
        | some pos =>
          some (match pos.lot.cost with
                | some cost => "@ " ++ Amount.str cost
                | none => "")

/-- Line assembly of `LedgerPrinter.Posting` (source lines 185-194 and
211-217), given the already-selected price string. -/
def ledgerPostingLine (posting : Posting) (price_str : String) : String :=
  let flag := pyFlagStr posting.flag
  let flag_posting := flag ++ ljust 62 posting.account
  let (amount_str, cost_str) :=
    match posting.position with
    | some pos => pos.strs
    | none => ("", "")
  rstrip ("  " ++ ljust 64 flag_posting
          ++ " " ++ rjust 16 (quote_currency amount_str)
          ++ " " ++ rjust 16 (quote_currency cost_str)
          ++ " " ++ rjust 16 (quote_currency price_str)) ++ "\n"

/-- `LedgerPrinter.Posting`: render one posting line.  The Python posting
carries a back-reference `posting.entry` to the owning transaction; it is
passed here explicitly. -/
def ledgerPostingStr (entry : Transaction) (posting : Posting) : Option String :=
  (ledgerPriceStr entry posting).map (ledgerPostingLine posting)

/-- Record body shared by `LedgerPrinter.Transaction` and the inherited
`HLedgerPrinter.Transaction`, applied to the transaction returned by
`fill_residual_posting`: build the `strings` list (sorted tag markers,
sorted link markers, payee segment, narration), write the single header
line, then dispatch each posting to the dialect posting renderer
(`cls.Posting`). -/
def renderFilledWith (postingStr : Transaction → Posting → Option String)
    (entry : Transaction) : Option String :=
  let strings :=
    (if entry.tags.isEmpty then []
     else (sortStrings entry.tags).map (fun tag => ";; Tag: #" ++ tag)) ++
    (if entry.links.isEmpty then []
     else (sortStrings entry.links).map (fun link => ";; Link: ^" ++ link)) ++
    (if pyTruthy entry.payee then [optStr entry.payee ++ " |"] else []) ++
    (if entry.narration.isEmpty then [] else [entry.narration])
  let header := dateStr entry.date ++ " " ++ optStr entry.flag ++ " "
                ++ String.intercalate " " strings ++ "\n"
  match entry.postings.mapM (postingStr entry) with
  | some lines => some (header ++ String.join lines)
  | none => none

/-- `LedgerPrinter.Transaction`, parameterized by the posting renderer
(the `cls.Posting` dispatch) and by the external collaborator
`interpolate.fill_residual_posting` (not under src/), which is invoked on
the entry with `ROUNDING_ACCOUNT` before anything else. -/
def transactionRecord (postingStr : Transaction → Posting → Option String)
    (fill : Transaction → String → Transaction) (entry : Transaction) : Option String :=
  renderFilledWith postingStr (fill entry ROUNDING_ACCOUNT)

/-- The Ledger-dialect transaction record. -/
def ledgerTransactionStr (fill : Transaction → String → Transaction)
    (entry : Transaction) : Option String :=
  transactionRecord ledgerPostingStr fill entry

/-- `LedgerPrinter.Balance`: no output (dated assertions unsupported). -/
def ledgerBalanceStr (_ : Balance) : String := ""

/-- `LedgerPrinter.Note`. -/
def ledgerNoteStr (n : Note) : String :=
  ";; Note: " ++ dateStr n.date ++ " " ++ n.account ++ " " ++ n.comment ++ "\n"

/-- `LedgerPrinter.Document`. -/
def ledgerDocumentStr (d : Document) : String :=
  ";; Document: " ++ dateStr d.date ++ " " ++ d.account ++ " " ++ d.filename ++ "\n"

/-- `LedgerPrinter.Pad`. -/
def ledgerPadStr (p : Pad) : String :=
  ";; Pad: " ++ dateStr p.date ++ " " ++ p.account ++ " " ++ p.source_account ++ "\n"

/-- `LedgerPrinter.Open`: an `account` line, then, when the
allowed-currencies list is truthy (non-empty), one `assert` line joining a
`commodity == "<ccy>"` clause per currency with a pipe. -/
def ledgerOpenStr (o : Open) : String :=
  "account " ++ ljust 47 o.account ++ "\n" ++
  (if o.currencies.isEmpty then ""
   else "  assert " ++
        String.intercalate " | "
          (o.currencies.map (fun currency => "commodity == \"" ++ currency ++ "\"")) ++ "\n")

/-- `LedgerPrinter.Close`. -/
def ledgerCloseStr (c : Close) : String :=
  ";; Close: " ++ dateStr c.date ++ " close " ++ c.account ++ "\n"

/-- `LedgerPrinter.Price`. -/
def ledgerPriceDirStr (p : PriceDir) : String :=
  quote_currency ("P " ++ dateStr p.date ++ " 00:00:00 " ++ ljust 16 p.currency
                  ++ " " ++ rjust 16 (Amount.str p.amount) ++ "\n")

/-- `LedgerPrinter.Event`. -/
def ledgerEventStr (e : Event) : String :=
  ";; Event: " ++ dateStr e.date ++ " \"" ++ e.type ++ "\" \"" ++ e.description ++ "\"\n"

/-- The `LedgerPrinter` dispatcher (`__call__` via the directive kind). -/
def ledgerDirectiveStr (fill : Transaction → String → Transaction) :
    Directive → Option String
  | .transaction t => ledgerTransactionStr fill t
  | .balance b => some (ledgerBalanceStr b)
  | .openD o => some (ledgerOpenStr o)
  | .closeD c => some (ledgerCloseStr c)
  | .note n => some (ledgerNoteStr n)
  | .document d => some (ledgerDocumentStr d)
  | .pad p => some (ledgerPadStr p)
  | .price p => some (ledgerPriceDirStr p)
  | .event e => some (ledgerEventStr e)

/-! ### HLedger printer (`HLedgerPrinter`, subclass overriding `Posting`
and `Open`) -/

/-- `HLedgerPrinter.Posting`: the cost clause is stripped of its brace
punctuation and re-emitted as `@ <cost>`; only the amount and cost fields
are formatted.  The local `price_str` of the source is computed but never
used in the emitted line. -/
def hledgerPostingStr (posting : Posting) : String :=
  let flag := pyFlagStr posting.flag
  let flag_posting := flag ++ ljust 62 posting.account
  let (amount_str, cost_str) :=
    match posting.position with
    | some pos =>
      let (amount_str, cost_str) := pos.strs
      (amount_str,
       if cost_str.isEmpty then cost_str
       else "@ " ++ String.mk (((cost_str.data.dropWhile (· == '\x7b')).reverse.dropWhile
                                 (· == '\x7d')).reverse))
    | none => ("", "")
  let price_str :=
    match posting.price with
    | some price => "@ " ++ Amount.str price
    | none => ""
  let _unused := price_str
  rstrip ("  " ++ ljust 64 flag_posting
          ++ " " ++ rjust 16 (quote_currency amount_str)
          ++ " " ++ rjust 16 (quote_currency cost_str)) ++ "\n"

/-- The HLedger-dialect transaction record (inherited
`LedgerPrinter.Transaction` body dispatching to the overridden Posting). -/
def hledgerTransactionStr (fill : Transaction → String → Transaction)
    (entry : Transaction) : Option String :=
  transactionRecord (fun _ posting => some (hledgerPostingStr posting)) fill entry

/-- `HLedgerPrinter.Open`: always a comment line. -/
def hledgerOpenStr (o : Open) : String :=
  ";; Open: " ++ dateStr o.date ++ " close " ++ o.account ++ "\n"

/-- The `HLedgerPrinter` dispatcher: overrides Transaction (via the
overridden Posting) and Open, inherits every other kind. -/
def hledgerDirectiveStr (fill : Transaction → String → Transaction) :
    Directive → Option String
  | .transaction t => hledgerTransactionStr fill t
  | .openD o => some (hledgerOpenStr o)
  | d => ledgerDirectiveStr fill d

/-! ### Spec-side classification predicates (section 4.1 of the spec) -/

/-- A posting held at cost: its Position has a Lot with a non-null cost. -/
def isAtCost (p : Posting) : Bool :=
  match p.position with
  | some pos => pos.lot.cost.isSome
  | none => false

/-- An at-price posting: a non-null Price and no Lot cost (cost wins). -/
def isAtPrice (p : Posting) : Bool :=
  !isAtCost p && p.price.isSome

/-- A simple posting: neither a Lot cost nor a Price. -/
def isSimplePosting (p : Posting) : Bool :=
  !isAtCost p && !p.price.isSome

/-! ### Concrete sample data (the spec section 8 end-to-end scenario,
with integer-valued numbers) -/

/-- A residual filler that returns the transaction unchanged (the spec
section 4.3 allows this when the residual is zero). -/
def idFill : Transaction → String → Transaction := fun e _ => e

/-- A weight function on postings (stands in for the external
`interpolate.get_posting_weight` in concrete evaluations). -/
def unitWeight : Posting → Amount := fun p =>
  match p.position with
  | some pos => ⟨pos.number, pos.lot.currency⟩
  | none => ⟨0, ""⟩

/-- The at-cost leg: 5 GOOG held at 520 USD. -/
def cGoog : Posting :=
  ⟨"Assets:CA:Investment:GOOG", some ⟨⟨"GOOG", some ⟨520, "USD"⟩, none⟩, 5⟩, none, none⟩

/-- The simple leg: 10 USD of commissions. -/
def cComm : Posting :=
  ⟨"Expenses:Commissions", some ⟨⟨"USD", none, none⟩, 10⟩, none, none⟩

/-- The at-price leg: -2939 CAD converted at 1 USD. -/
def cCash : Posting :=
  ⟨"Assets:CA:Investment:Cash", some ⟨⟨"CAD", none, none⟩, -2939⟩, some ⟨1, "USD"⟩, none⟩

/-- A leg carrying both a cost and an explicit price. -/
def cBoth : Posting :=
  ⟨"Assets:CA:Investment:GOOG", some ⟨⟨"GOOG", some ⟨520, "USD"⟩, none⟩, 5⟩,
   some ⟨530, "USD"⟩, none⟩

/-- Transaction mixing an at-cost, a simple and an at-price posting. -/
def cTxMix : Transaction :=
  ⟨⟨2014, 11, 2⟩, some "*", none, "Buy stock", [], [], [cGoog, cComm, cCash]⟩

/-- The same transaction without the at-price posting. -/
def cTxNoPrice : Transaction :=
  ⟨⟨2014, 11, 2⟩, some "*", none, "Buy stock", [], [], [cGoog, cComm]⟩

/-- A flagged, payee-carrying transaction with one tag and one link. -/
def cTxTagged : Transaction :=
  ⟨⟨2014, 11, 2⟩, some "*", some "Acme", "Lunch", ["trip"], ["a1"], [cComm]⟩

/-- An Open directive restricted to USD and EUR. -/
def cOpen : Open := ⟨⟨2014, 1, 1⟩, "Assets:Investment", ["USD", "EUR"]⟩

/-! ### Claim theorems -/

/-- Claim C7: for every rendered Transaction, in both dialect variants,
the residual balancer is invoked exactly once, on the fixed reserved
account name `Equity:Rounding`, before any classification or rendering of
the postings: each dialect record is exactly the post-fill record body
applied to `fill entry ROUNDING_ACCOUNT`, so the posting lines emitted are
those of the transaction the balancer returned. -/
theorem claim_C7_residual_balancer_first :
    ∀ (fill : Transaction → String → Transaction) (entry : Transaction),
      ledgerTransactionStr fill entry =
        renderFilledWith ledgerPostingStr (fill entry ROUNDING_ACCOUNT) ∧
      hledgerTransactionStr fill entry =
        renderFilledWith (fun _ posting => some (hledgerPostingStr posting))
          (fill entry ROUNDING_ACCOUNT) ∧
      ROUNDING_ACCOUNT = "Equity:Rounding" :=
  fun _ _ => ⟨rfl, rfl, rfl⟩

/-- Claim C9: a Balance directive renders as the empty record in both
dialect variants. -/
theorem claim_C9_balance_empty :
    ∀ (fill : Transaction → String → Transaction) (b : Balance),
      ledgerDirectiveStr fill (Directive.balance b) = some "" ∧
      hledgerDirectiveStr fill (Directive.balance b) = some "" :=
  fun _ _ => ⟨rfl, rfl⟩

/-- Claim C8: an Open directive renders in the baseline dialect as an
`account` line followed, when the allowed-currencies list is non-empty, by
one `assert` line joining a `commodity == "<ccy>"` clause per currency
with a pipe; the HLedger dialect renders every Open as a single comment
line regardless of currencies. -/
theorem claim_C8_open_rendering :
    (∀ o : Open, o.currencies ≠ [] →
      ledgerOpenStr o =
        "account " ++ ljust 47 o.account ++ "\n" ++
          ("  assert " ++
            String.intercalate " | "
              (o.currencies.map (fun currency => "commodity == \"" ++ currency ++ "\"")) ++
            "\n")) ∧
    (∀ o : Open, o.currencies = [] →
      ledgerOpenStr o = "account " ++ ljust 47 o.account ++ "\n") ∧
    (∀ o : Open,
      hledgerOpenStr o = ";; Open: " ++ dateStr o.date ++ " close " ++ o.account ++ "\n") := by
  refine ⟨fun o h => ?_, fun o h => ?_, fun o => rfl⟩
  · have hne : o.currencies.isEmpty = false := by
      cases hc : o.currencies with
      | nil => exact absurd hc h
      | cons x xs => rfl
    simp [ledgerOpenStr, hne]
  · simp [ledgerOpenStr, h]

/-- Witness for claim C8 at the spec example (`USD`, `EUR`). -/
theorem claim_C8_witness :
    cOpen.currencies ≠ [] ∧
    ledgerOpenStr cOpen =
      "account Assets:Investment                              \n  assert commodity == \"USD\" | commodity == \"EUR\"\n" ∧
    hledgerOpenStr cOpen = ";; Open: 2014/01/01 close Assets:Investment\n" := by
  have h1 := claim_C8_open_rendering.1 cOpen (by decide)
  have h2 := claim_C8_open_rendering.2.2 cOpen
  refine ⟨by decide, ?_, ?_⟩
  · rw [h1]; decide
  · rw [h2]; decide

/-- Claim C3 (code bug): the source appends the `;; Tag: #<tag>` and
`;; Link: ^<link>` markers to the same `strings` list as the payee and
narration, so they are space-joined into the single header line instead of
being emitted as separate comment lines before it.  At the failing input
(one tag `trip`, one link `a1`, payee `Acme`, narration `Lunch`) the whole
record is one header line plus the posting line, and it does not start
with a `;; Tag:` comment line. -/
theorem claim_C3_tags_joined_into_header :
    ledgerTransactionStr idFill cTxTagged =
      some ("2014/11/02 * ;; Tag: #trip ;; Link: ^a1 Acme | Lunch\n" ++
            "  Expenses:Commissions                                                       10 USD\n") ∧
    (match ledgerTransactionStr idFill cTxTagged with
     | some record => ";; Tag: #trip\n".data.isPrefixOf record.data
     | none => true) = false := by
  constructor
  · decide
  · decide

/-- Claim C4 (code bug): `HLedgerPrinter.Posting` computes `price_str`
from the explicit Price but never uses it, and formats only the amount and
the cost-as-price fields; an at-price posting therefore loses its `@`
price annotation entirely, while an at-cost posting gets `@ <cost>`
(whether or not an explicit Price is also present). -/
theorem claim_C4_hledger_price_dropped :
    cCash.price = some ⟨1, "USD"⟩ ∧
    hledgerPostingStr cCash =
      "  Assets:CA:Investment:Cash                                               -2939 CAD\n" ∧
    (hledgerPostingStr cCash).data.contains '@' = false ∧
    hledgerPostingStr cGoog =
      "  Assets:CA:Investment:GOOG                                                  5 GOOG        @ 520 USD\n" ∧
    hledgerPostingStr cBoth =
      "  Assets:CA:Investment:GOOG                                                  5 GOOG        @ 520 USD\n" := by
  refine ⟨rfl, by decide, by decide, by decide, by decide⟩

/-- Classifier characterization: a successful `classifyPostings` run
returns exactly the three order-preserving filters of the input by the
classification predicates. -/
theorem classifyPostings_eq_filter :
    ∀ (ps : List Posting) {s ap ac : List Posting},
      classifyPostings ps = some (s, ap, ac) →
      s = ps.filter isSimplePosting ∧
      ap = ps.filter isAtPrice ∧
      ac = ps.filter isAtCost := by
  intro ps
  induction ps with
  | nil =>
    intro s ap ac h
    simp only [classifyPostings, Option.some.injEq, Prod.mk.injEq] at h
    obtain ⟨h1, h2, h3⟩ := h
    simp [← h1, ← h2, ← h3]
  | cons p ps ih =>
    intro s ap ac h
    simp only [classifyPostings] at h
    cases hp : p.position with
    | none => rw [hp] at h; exact absurd h (by simp)
    | some pos =>
      rw [hp] at h
      cases hc : classifyPostings ps with
      | none => rw [hc] at h; exact absurd h (by simp)
      | some trip =>
        obtain ⟨s', ap', ac'⟩ := trip
        obtain ⟨hs', hap', hac'⟩ := ih hc
        rw [hc] at h
        simp only [Option.map_some', Option.some.injEq] at h
        have hcost : isAtCost p = pos.lot.cost.isSome := by
          simp [isAtCost, hp]
        by_cases h1 : pos.lot.cost.isSome = true
        · rw [if_pos h1] at h
          simp only [Prod.mk.injEq] at h
          obtain ⟨e1, e2, e3⟩ := h
          refine ⟨?_, ?_, ?_⟩
          · rw [← e1, hs', List.filter_cons, if_neg (by simp [isSimplePosting, hcost, h1])]
          · rw [← e2, hap', List.filter_cons, if_neg (by simp [isAtPrice, hcost, h1])]
          · rw [← e3, hac', List.filter_cons, if_pos (by simp [hcost, h1])]
        · rw [if_neg h1] at h
          have h1' : pos.lot.cost.isSome = false := by
            cases hval : pos.lot.cost.isSome
            · rfl
            · exact absurd hval h1
          by_cases h2 : p.price.isSome = true
          · rw [if_pos h2] at h
            simp only [Prod.mk.injEq] at h
            obtain ⟨e1, e2, e3⟩ := h
            refine ⟨?_, ?_, ?_⟩
            · rw [← e1, hs', List.filter_cons,
                  if_neg (by simp [isSimplePosting, hcost, h1', h2])]
            · rw [← e2, hap', List.filter_cons,
                  if_pos (by simp [isAtPrice, hcost, h1', h2])]
            · rw [← e3, hac', List.filter_cons, if_neg (by simp [hcost, h1'])]
          · have h2' : p.price.isSome = false := by
              cases hval : p.price.isSome
              · rfl
              · exact absurd hval h2
            rw [if_neg h2] at h
            simp only [Prod.mk.injEq] at h
            obtain ⟨e1, e2, e3⟩ := h
            refine ⟨?_, ?_, ?_⟩
            · rw [← e1, hs', List.filter_cons,
                  if_pos (by simp [isSimplePosting, hcost, h1', h2'])]
            · rw [← e2, hap', List.filter_cons,
                  if_neg (by simp [isAtPrice, hcost, h1', h2'])]
            · rw [← e3, hac', List.filter_cons, if_neg (by simp [hcost, h1'])]

/-- Claim C2: a successful run of the posting classifier returns three
ordered sequences `(simple, at_price, at_cost)` that are exactly the
order-preserving filters of `transaction.postings` by the classification
rule (Lot cost wins, else Price, else simple) — hence a partition — and a
posting with a Lot cost lands in `at_cost` and never in `at_price`, even
when it also carries an explicit Price. -/
theorem claim_C2_classifier_partition :
    ∀ (entry : Transaction) (s ap ac : List Posting),
      postings_by_type entry = some (s, ap, ac) →
      s = entry.postings.filter isSimplePosting ∧
      ap = entry.postings.filter isAtPrice ∧
      ac = entry.postings.filter isAtCost ∧
      (∀ p ∈ entry.postings, isAtCost p = true → p ∈ ac ∧ p ∉ ap) := by
  intro entry s ap ac h
  obtain ⟨hs, hap, hac⟩ := classifyPostings_eq_filter entry.postings h
  refine ⟨hs, hap, hac, fun p hmem hcost => ⟨?_, ?_⟩⟩
  · rw [hac]
    exact List.mem_filter.mpr ⟨hmem, hcost⟩
  · rw [hap]
    intro hcontra
    have := (List.mem_filter.mp hcontra).2
    simp [isAtPrice, hcost] at this

/-- Witness for claim C2 at the mixed sample transaction (which also
exercises the cost-and-price posting case via `isAtPrice cBoth = false`). -/
theorem claim_C2_witness :
    [cComm] = cTxMix.postings.filter isSimplePosting ∧
    [cCash] = cTxMix.postings.filter isAtPrice ∧
    [cGoog] = cTxMix.postings.filter isAtCost ∧
    (cGoog ∈ [cGoog] ∧ cGoog ∉ [cCash]) := by
  have h := claim_C2_classifier_partition cTxMix [cComm] [cCash] [cGoog] (by decide)
  exact ⟨h.1, h.2.1, h.2.2.1, h.2.2.2 cGoog (by decide) (by decide)⟩

/-- Claim C1: in the baseline Ledger dialect, an at-cost posting with no
explicit Price, inside a transaction whose classifier result has at least
one at-price posting, renders with the synthesized price field
`@ <cost>` taken from its Lot cost; with no at-price postings in the
transaction, its rendered line gets an empty price field instead. -/
theorem claim_C1_synthesized_price :
    ∀ (entry : Transaction) (posting : Posting) (pos : Position) (cost : Amount)
      (s ap ac : List Posting),
      postings_by_type entry = some (s, ap, ac) →
      posting ∈ entry.postings →
      posting.position = some pos →
      pos.lot.cost = some cost →
      posting.price = none →
      (ap ≠ [] →
        ledgerPostingStr entry posting =
          some (ledgerPostingLine posting ("@ " ++ Amount.str cost))) ∧
      (ap = [] →
        ledgerPostingStr entry posting = some (ledgerPostingLine posting "")) := by
  intro entry posting pos cost s ap ac hclass hmem hpos hcost hprice
  have hatcost : isAtCost posting = true := by
    simp [isAtCost, hpos, hcost]
  have hacmem : posting ∈ ac :=
    (claim_C2_classifier_partition entry s ap ac hclass).2.2.2 posting hmem hatcost |>.1
  have hacne : ac ≠ [] := List.ne_nil_of_mem hacmem
  constructor
  · intro hapne
    have hape : ap.isEmpty = false := by
      cases hval : ap with
      | nil => exact absurd hval hapne
      | cons x xs => rfl
    have hace : ac.isEmpty = false := by
      cases hval : ac with
      | nil => exact absurd hval hacne
      | cons x xs => rfl
    simp only [ledgerPostingStr, ledgerPriceStr, hprice, hclass, hape, hace,
               Bool.or_self, Bool.false_eq_true, if_false, hpos, hcost,
               Option.map_some']
  · intro hapnil
    have hape : ap.isEmpty = true := by rw [hapnil]; rfl
    simp only [ledgerPostingStr, ledgerPriceStr, hprice, hclass, hape,
               Bool.true_or, if_true, Option.map_some']

/-- Witness for claim C1: the GOOG leg of the mixed transaction renders
with the synthesized `@ 520 USD`, and the same leg in the price-free
transaction renders with an empty price field. -/
theorem claim_C1_witness :
    ledgerPostingStr cTxMix cGoog =
      some (ledgerPostingLine cGoog ("@ " ++ Amount.str ⟨520, "USD"⟩)) ∧
    ledgerPostingStr cTxNoPrice cGoog = some (ledgerPostingLine cGoog "") := by
  constructor
  · exact (claim_C1_synthesized_price cTxMix cGoog ⟨⟨"GOOG", some ⟨520, "USD"⟩, none⟩, 5⟩
      ⟨520, "USD"⟩ [cComm] [cCash] [cGoog] (by decide) (by decide) rfl rfl rfl).1
      (by decide)
  · exact (claim_C1_synthesized_price cTxNoPrice cGoog ⟨⟨"GOOG", some ⟨520, "USD"⟩, none⟩, 5⟩
      ⟨520, "USD"⟩ [cComm] [] [cGoog] (by decide) (by decide) rfl rfl rfl).2 rfl

/-- Claim C10: `split_currency_conversions` leaves a transaction without
both an at-cost and an at-price posting untouched, returning
`(false, [entry])`; on a transaction with both it returns `(true, ...)`
with one currency-conversion transaction per at-price posting followed by
the combined transaction whose postings are the at-cost postings, then the
simple postings, then one replacement posting per at-price posting.  The
input transaction value is not modified (the combined entry is a fresh
record-update copy). -/
theorem claim_C10_split_conversions :
    ∀ (getWeight : Posting → Amount) (entry : Transaction) (s ap ac : List Posting),
      postings_by_type entry = some (s, ap, ac) →
      ((ap = [] ∨ ac = []) →
        split_currency_conversions getWeight entry = some (false, [entry])) ∧
      (ap ≠ [] → ac ≠ [] →
        split_currency_conversions getWeight entry =
          some (true,
            ap.map (currencyConversionEntry getWeight entry) ++
              [{ entry with
                  postings := ac ++ s ++ ap.map (replacementPosting getWeight) }])) := by
  intro getWeight entry s ap ac h
  constructor
  · intro hor
    have hconv : (!ac.isEmpty && !ap.isEmpty) = false := by
      rcases hor with h' | h' <;> simp [h']
    simp only [split_currency_conversions, h, Option.map_some', hconv,
               Bool.false_eq_true, if_false]
  · intro h1 h2
    have e1 : ap.isEmpty = false := by
      cases hv : ap with
      | nil => exact absurd hv h1
      | cons x xs => rfl
    have e2 : ac.isEmpty = false := by
      cases hv : ac with
      | nil => exact absurd hv h2
      | cons x xs => rfl
    simp only [split_currency_conversions, h, Option.map_some', e1, e2,
               Bool.not_false, Bool.and_self, if_true]

/-- Witness for claim C10 at the sample transactions. -/
theorem claim_C10_witness :
    split_currency_conversions unitWeight cTxNoPrice = some (false, [cTxNoPrice]) ∧
    split_currency_conversions unitWeight cTxMix =
      some (true,
        [cCash].map (currencyConversionEntry unitWeight cTxMix) ++
          [{ cTxMix with
              postings := [cGoog] ++ [cComm] ++ [cCash].map (replacementPosting unitWeight) }]) := by
  constructor
  · exact (claim_C10_split_conversions unitWeight cTxNoPrice [cComm] [] [cGoog]
      (by decide)).1 (Or.inl rfl)
  · exact (claim_C10_split_conversions unitWeight cTxMix [cComm] [cCash] [cGoog]
      (by decide)).2 (by decide) (by decide)

/-! ### Lemmas about the `re.sub` scan, for claims C5 and C6 -/

/-- Scanning an empty list yields an empty list at any fuel. -/
theorem quoteScan_nil (fuel : Nat) (prev : Bool) : quoteScan fuel prev [] = [] := by
  cases fuel <;> rfl

/-- One-step unfolding of the scan on a cons cell with positive fuel. -/
theorem quoteScan_succ_cons (fuel : Nat) (prevWord : Bool) (c : Char) (cs : List Char) :
    quoteScan (fuel + 1) prevWord (c :: cs) =
      if !prevWord then
        match tryMatch (c :: cs) with
        | some len => quote ((c :: cs).take len) ++ quoteScan fuel true ((c :: cs).drop len)
        | none => c :: quoteScan fuel (isWordChar c) cs
      else c :: quoteScan fuel (isWordChar c) cs := rfl

/-- A scan over characters that can never start a token is the identity. -/
theorem quoteScan_id_of_no_start :
    ∀ (fuel : Nat) (prev : Bool) (cs : List Char),
      (∀ c ∈ cs, isCurrStart c = false) → quoteScan fuel prev cs = cs := by
  intro fuel
  induction fuel with
  | zero => intro _ _ _; rfl
  | succ fuel ih =>
    intro prev cs h
    cases cs with
    | nil => rfl
    | cons c cs' =>
      have hc : isCurrStart c = false := h c (List.mem_cons_self c cs')
      have htail : ∀ x ∈ cs', isCurrStart x = false :=
        fun x hx => h x (List.mem_cons_of_mem c hx)
      have hnm : tryMatch (c :: cs') = none := by
        simp [tryMatch, hc]
      rw [quoteScan_succ_cons]
      cases prev with
      | true => simp [ih _ _ htail]
      | false => simp [hnm, ih _ _ htail]

/-- A scan over characters that are neither digits nor periods is the
identity: any matched token is re-emitted unquoted. -/
theorem quoteScan_id_of_no_digit_dot :
    ∀ (fuel : Nat) (prev : Bool) (cs : List Char),
      (∀ c ∈ cs, (c.isDigit || c == '.') = false) → quoteScan fuel prev cs = cs := by
  intro fuel
  induction fuel with
  | zero => intro _ _ _; rfl
  | succ fuel ih =>
    intro prev cs h
    cases cs with
    | nil => rfl
    | cons c cs' =>
      have htail : ∀ x ∈ cs', (x.isDigit || x == '.') = false :=
        fun x hx => h x (List.mem_cons_of_mem c hx)
      rw [quoteScan_succ_cons]
      cases prev with
      | true => simp [ih _ _ htail]
      | false =>
        cases hm : tryMatch (c :: cs') with
        | none => simp [ih _ _ htail]
        | some len =>
          have hany : ((c :: cs').take len).any (fun x => x.isDigit || x == '.') = false := by
            simp only [List.any_eq_false]
            intro x hx
            simp [h x (List.take_subset len (c :: cs') hx)]
          have hq : quote ((c :: cs').take len) = (c :: cs').take len := by
            simp [quote, hany]
          have hdrop : ∀ x ∈ (c :: cs').drop len, (x.isDigit || x == '.') = false :=
            fun x hx => h x (List.drop_subset len (c :: cs') hx)
          simp only [Bool.not_false, if_true, hm, hq, ih _ _ hdrop,
                     List.take_append_drop]

/-- On a string without digits or periods, `quote_currency` is the
identity. -/
theorem quote_currency_fixed_of_no_digit_dot (s : String)
    (h : ∀ c ∈ s.data, (c.isDigit || c == '.') = false) : quote_currency s = s := by
  obtain ⟨data⟩ := s
  unfold quote_currency
  rw [quoteScan_id_of_no_digit_dot _ _ _ h]

/-- Prefix of middle-class characters extends `takeWhile` across an
append. -/
theorem takeWhile_append_of_all (p : Char → Bool) :
    ∀ (l r : List Char), (∀ c ∈ l, p c = true) →
      (l ++ r).takeWhile p = l ++ r.takeWhile p := by
  intro l
  induction l with
  | nil => intro r _; rfl
  | cons c l ih =>
    intro r h
    have hc : p c = true := h c (List.mem_cons_self c l)
    simp [List.takeWhile_cons, hc, ih r (fun x hx => h x (List.mem_cons_of_mem c hx))]

/-- The backtracking loop succeeds immediately at a position where the
end-of-token check holds. -/
theorem findEnd_of_check {rest : List Char} {k : Nat} (h : checkEndAt rest k = true) :
    findEnd rest k = some k := by
  cases k <;> simp [findEnd, h]

/-- On an isolated well-formed token the matcher matches the whole
token. -/
theorem tryMatch_token (u : Char) (mid : List Char) (e : Char)
    (hu : isCurrStart u = true) (hmid : ∀ c ∈ mid, isCurrMid c = true)
    (hlen : mid.length ≤ 10) (he : isCurrEnd e = true) :
    tryMatch (u :: (mid ++ [e])) = some (mid.length + 2) := by
  have hget : (mid ++ [e])[mid.length]? = some e := List.getElem?_concat_length mid e
  have hnone : (mid ++ [e])[mid.length + 1]? = none :=
    List.getElem?_eq_none_iff.mpr (by simp)
  have hcheck : checkEndAt (mid ++ [e]) mid.length = true := by
    simp [checkEndAt, boundaryAt, hget, hnone, he]
  have hrun : midRunLen (mid ++ [e]) = mid.length + midRunLen [e] := by
    unfold midRunLen
    rw [takeWhile_append_of_all isCurrMid mid [e] hmid]
    simp
  simp only [tryMatch, hu, if_true]
  cases hme : isCurrMid e with
  | false =>
    have hrune : midRunLen [e] = 0 := by simp [midRunLen, List.takeWhile_cons, hme]
    have hmin : min 10 (midRunLen (mid ++ [e])) = mid.length := by
      rw [hrun, hrune]
      omega
    rw [hmin, findEnd_of_check hcheck]
    rfl
  | true =>
    have hrune : midRunLen [e] = 1 := by simp [midRunLen, List.takeWhile_cons, hme]
    by_cases h10 : mid.length = 10
    · have hmin : min 10 (midRunLen (mid ++ [e])) = mid.length := by
        rw [hrun, hrune, h10]
        decide
      rw [hmin, findEnd_of_check hcheck]
      rfl
    · have hmin : min 10 (midRunLen (mid ++ [e])) = mid.length + 1 := by
        rw [hrun, hrune]
        omega
      have hfail : checkEndAt (mid ++ [e]) (mid.length + 1) = false := by
        simp [checkEndAt, hnone]
      have hstep : findEnd (mid ++ [e]) (mid.length + 1) = findEnd (mid ++ [e]) mid.length := by
        simp [findEnd, hfail]
      rw [hmin, hstep, findEnd_of_check hcheck]
      rfl

/-- On an isolated well-formed token, `quote_currency` applies the
`quote` replacement to the whole token. -/
theorem quote_currency_token (u : Char) (mid : List Char) (e : Char)
    (hu : isCurrStart u = true) (hmid : ∀ c ∈ mid, isCurrMid c = true)
    (hlen : mid.length ≤ 10) (he : isCurrEnd e = true) :
    quote_currency (String.mk (u :: (mid ++ [e]))) =
      String.mk (quote (u :: (mid ++ [e]))) := by
  unfold quote_currency
  have hlen2 : (String.mk (u :: (mid ++ [e]))).data.length = (mid.length + 1) + 1 := by
    simp
  rw [hlen2]
  show String.mk (quoteScan ((mid.length + 1) + 1) false (u :: (mid ++ [e]))) = _
  rw [quoteScan_succ_cons]
  simp only [Bool.not_false, if_true, tryMatch_token u mid e hu hmid hlen he]
  have htake : (u :: (mid ++ [e])).take (mid.length + 2) = u :: (mid ++ [e]) :=
    List.take_of_length_le (by simp)
  have hdrop : (u :: (mid ++ [e])).drop (mid.length + 2) = [] :=
    List.drop_of_length_le (by simp)
  rw [htake, hdrop, quoteScan_nil, List.append_nil]

/-! ### Spec-side characterization of the substitution, from the words of
the claim: a currency token is one uppercase letter, then 0-10 characters
from the middle class, then one uppercase-letter-or-digit, word-boundary
delimited; a matched token is wrapped in double quotes iff it contains a
digit or a period; all other text is left unchanged. -/

/-- A list of characters that is a currency token of the claimed pattern
(the word boundary on the left is the `prev` state of `QuoteSub`, the one
on the right is `BoundaryAfter` on the remaining input). -/
def IsPatternToken (t : List Char) : Prop :=
  ∃ u mid e, t = u :: (mid ++ [e]) ∧ isCurrStart u = true ∧
    (∀ c ∈ mid, isCurrMid c = true) ∧ mid.length ≤ 10 ∧ isCurrEnd e = true

/-- The right word boundary: the input following the token either ends or
continues with a non-word character. -/
def BoundaryAfter : List Char → Prop
  | [] => True
  | d :: _ => isWordChar d = false

/-- A word-boundary-delimited pattern token begins at the head of `cs`
(the left boundary being the caller's responsibility). -/
def TokenStartsAt (cs : List Char) : Prop :=
  ∃ t rest, cs = t ++ rest ∧ IsPatternToken t ∧ BoundaryAfter rest

/-- Relational specification of the claim, relating an input suffix to an
output suffix given whether the previous character was a word character:
the output is the input with word-boundary-delimited pattern tokens
replaced by `quote` of themselves (wrapped iff they contain a digit or a
period) and every other character kept unchanged; a character may be kept
only when it is mid-word (no left boundary) or no delimited token starts
at it, so token positions are never skipped. -/
inductive QuoteSub : Bool → List Char → List Char → Prop
  | nil (prev : Bool) : QuoteSub prev [] []
  | keep (prev : Bool) (c : Char) (cs out : List Char) :
      prev = true ∨ ¬TokenStartsAt (c :: cs) →
      QuoteSub (isWordChar c) cs out →
      QuoteSub prev (c :: cs) (c :: out)
  | tok (t rest out : List Char) :
      IsPatternToken t →
      BoundaryAfter rest →
      QuoteSub true rest out →
      QuoteSub false (t ++ rest) (quote t ++ out)

/-- Characters within the middle run are middle-class characters. -/
theorem all_take_of_le_midRun :
    ∀ (l : List Char) (k : Nat), k ≤ midRunLen l →
      ∀ x ∈ l.take k, isCurrMid x = true := by
  intro l
  induction l with
  | nil => intro k _ x hx; simp at hx
  | cons c l ih =>
    intro k h x hx
    cases k with
    | zero => simp at hx
    | succ j =>
      have hc : isCurrMid c = true := by
        cases hcc : isCurrMid c with
        | true => rfl
        | false =>
          have : midRunLen (c :: l) = 0 := by
            simp [midRunLen, List.takeWhile_cons, hcc]
          omega
      have hrun : midRunLen (c :: l) = midRunLen l + 1 := by
        simp [midRunLen, List.takeWhile_cons, hc]
      have hx' : x ∈ c :: l.take j := hx
      rcases List.mem_cons.mp hx' with h1 | h1
      · rw [h1]; exact hc
      · exact ih j (by omega) x h1

/-- A successful backtracking loop returns a position where the
end-of-token check holds, within the starting bound. -/
theorem findEnd_some :
    ∀ (K k : Nat) (rest : List Char), findEnd rest K = some k →
      checkEndAt rest k = true ∧ k ≤ K := by
  intro K
  induction K with
  | zero =>
    intro k rest h
    cases hc : checkEndAt rest 0 with
    | true =>
      simp only [findEnd, hc, if_true, Option.some.injEq] at h
      exact ⟨h ▸ hc, by omega⟩
    | false => simp [findEnd, hc] at h
  | succ K ih =>
    intro k rest h
    cases hc : checkEndAt rest (K + 1) with
    | true =>
      simp only [findEnd, hc, if_true, Option.some.injEq] at h
      exact ⟨h ▸ hc, by omega⟩
    | false =>
      simp only [findEnd, hc, Bool.false_eq_true, if_false] at h
      obtain ⟨h1, h2⟩ := ih k rest h
      exact ⟨h1, by omega⟩

/-- The backtracking loop succeeds whenever the end-of-token check holds
anywhere within the bound. -/
theorem findEnd_isSome :
    ∀ (K k : Nat) (rest : List Char), k ≤ K → checkEndAt rest k = true →
      (findEnd rest K).isSome = true := by
  intro K
  induction K with
  | zero =>
    intro k rest hk hc
    have : k = 0 := by omega
    subst this
    simp [findEnd, hc]
  | succ K ih =>
    intro k rest hk hc
    cases hK : checkEndAt rest (K + 1) with
    | true => simp [findEnd, hK]
    | false =>
      have hkK : k ≤ K := by
        rcases Nat.lt_or_ge k (K + 1) with h | h
        · omega
        · have : k = K + 1 := by omega
          rw [this] at hc
          rw [hc] at hK
          cases hK
      simp only [findEnd, hK, Bool.false_eq_true, if_false]
      exact ih k rest hkK hc

/-- A true boundary check at index `i` gives the right word boundary for
the input remaining after dropping `i` characters. -/
theorem BoundaryAfter_drop_of (l : List Char) (i : Nat)
    (h : boundaryAt l i = true) : BoundaryAfter (l.drop i) := by
  cases hd : l.drop i with
  | nil => trivial
  | cons d t =>
    have hget : l[i]? = some d := by
      have h0 := List.getElem?_drop l i 0
      rw [hd] at h0
      simpa using h0.symm
    unfold boundaryAt at h
    rw [hget] at h
    show isWordChar d = false
    simpa using h

/-- Soundness of the matcher: a match is a word-boundary-delimited
pattern token followed by a right boundary. -/
theorem tryMatch_some_token (cs : List Char) (len : Nat)
    (h : tryMatch cs = some len) :
    (∃ k, len = k + 2) ∧ IsPatternToken (cs.take len) ∧ BoundaryAfter (cs.drop len) := by
  cases cs with
  | nil => simp [tryMatch] at h
  | cons c cs' =>
    simp only [tryMatch] at h
    cases hstart : isCurrStart c with
    | false => rw [hstart] at h; simp at h
    | true =>
      rw [hstart, if_pos rfl] at h
      cases hf : findEnd cs' (min 10 (midRunLen cs')) with
      | none => rw [hf] at h; simp at h
      | some k =>
        rw [hf] at h
        simp only [Option.map_some', Option.some.injEq] at h
        obtain ⟨hcheck, hkle⟩ := findEnd_some _ k cs' hf
        unfold checkEndAt at hcheck
        cases hget : cs'[k]? with
        | none => rw [hget] at hcheck; cases hcheck
        | some e =>
          rw [hget] at hcheck
          simp only [Bool.and_eq_true] at hcheck
          obtain ⟨hend, hbnd⟩ := hcheck
          have hk10 : k ≤ 10 := le_trans hkle (Nat.min_le_left _ _)
          have hkrun : k ≤ midRunLen cs' := le_trans hkle (Nat.min_le_right _ _)
          have ht1 : (c :: cs').take (k + 2) = c :: cs'.take (k + 1) := rfl
          have ht2 : cs'.take (k + 1) = cs'.take k ++ [e] := by
            rw [List.take_succ, hget]
            rfl
          refine ⟨⟨k, h.symm⟩, ?_, ?_⟩
          · rw [← h]
            refine ⟨c, cs'.take k, e, by rw [ht1, ht2], hstart, ?_, ?_, hend⟩
            · exact fun x hx => all_take_of_le_midRun cs' k hkrun x hx
            · rw [List.length_take]
              exact le_trans (Nat.min_le_left _ _) hk10
          · rw [← h]
            have hdrop : (c :: cs').drop (k + 2) = cs'.drop (k + 1) := rfl
            rw [hdrop]
            exact BoundaryAfter_drop_of cs' (k + 1) hbnd

/-- Completeness of the matcher: whenever a word-boundary-delimited
pattern token starts at the head of the input, the matcher matches. -/
theorem tryMatch_isSome_of_token (cs : List Char) (h : TokenStartsAt cs) :
    (tryMatch cs).isSome = true := by
  obtain ⟨t, rest, heq, ⟨u, mid, e, ht, hu, hmid, hlen, hend⟩, hbnd⟩ := h
  subst ht
  subst heq
  have hform : (u :: (mid ++ [e])) ++ rest = u :: (mid ++ e :: rest) := by simp
  rw [hform]
  have hget : (mid ++ e :: rest)[mid.length]? = some e := by
    rw [List.getElem?_append_right (Nat.le_refl mid.length)]
    simp
  have hg2 : (mid ++ e :: rest)[mid.length + 1]? = rest[0]? := by
    rw [List.getElem?_append_right (by omega)]
    have h1 : mid.length + 1 - mid.length = 1 := by omega
    rw [h1]
    simp
  have hbAt : boundaryAt (mid ++ e :: rest) (mid.length + 1) = true := by
    unfold boundaryAt
    rw [hg2]
    cases hr : rest with
    | nil => rfl
    | cons d tl =>
      have hd : isWordChar d = false := by
        rw [hr] at hbnd
        exact hbnd
      simp [hd]
  have hcheck : checkEndAt (mid ++ e :: rest) mid.length = true := by
    unfold checkEndAt
    rw [hget, hbAt]
    simp [hend]
  have hkle : mid.length ≤ min 10 (midRunLen (mid ++ e :: rest)) := by
    have hr : midRunLen (mid ++ e :: rest) =
        mid.length + midRunLen (e :: rest) := by
      unfold midRunLen
      rw [takeWhile_append_of_all isCurrMid mid (e :: rest) hmid]
      simp
    omega
  have hsome := findEnd_isSome _ mid.length (mid ++ e :: rest) hkle hcheck
  simp only [tryMatch]
  rw [hu, if_pos rfl]
  cases hf : findEnd (mid ++ e :: rest) (min 10 (midRunLen (mid ++ e :: rest))) with
  | none => rw [hf] at hsome; cases hsome
  | some k => simp

/-- The scan realizes the relational specification on every input: its
output is the input with delimited tokens quoted per `quote` and all
other characters unchanged. -/
theorem quoteScan_QuoteSub :
    ∀ (fuel : Nat) (prev : Bool) (cs : List Char), cs.length ≤ fuel →
      QuoteSub prev cs (quoteScan fuel prev cs) := by
  intro fuel
  induction fuel with
  | zero =>
    intro prev cs h
    have : cs = [] := List.length_eq_zero.mp (by omega)
    subst this
    exact QuoteSub.nil prev
  | succ fuel ih =>
    intro prev cs h
    cases cs with
    | nil => rw [quoteScan_nil]; exact QuoteSub.nil prev
    | cons c cs' =>
      have hlen : cs'.length ≤ fuel := by
        simp only [List.length_cons] at h
        omega
      cases prev with
      | true =>
        have hred : quoteScan (fuel + 1) true (c :: cs') =
            c :: quoteScan fuel (isWordChar c) cs' := rfl
        rw [hred]
        exact QuoteSub.keep true c cs' _ (Or.inl rfl) (ih _ _ hlen)
      | false =>
        have hred : quoteScan (fuel + 1) false (c :: cs') =
            match tryMatch (c :: cs') with
            | some len =>
              quote ((c :: cs').take len) ++ quoteScan fuel true ((c :: cs').drop len)
            | none => c :: quoteScan fuel (isWordChar c) cs' := rfl
        rw [hred]
        cases hm : tryMatch (c :: cs') with
        | none =>
          refine QuoteSub.keep false c cs' _ (Or.inr ?_) (ih _ _ hlen)
          intro hstart
          have hsome := tryMatch_isSome_of_token (c :: cs') hstart
          rw [hm] at hsome
          cases hsome
        | some len =>
          obtain ⟨⟨k, hk⟩, htok, hbnd⟩ := tryMatch_some_token (c :: cs') len hm
          have hdec : ((c :: cs').drop len).length ≤ fuel := by
            rw [List.length_drop]
            simp only [List.length_cons]
            omega
          have hstep := QuoteSub.tok ((c :: cs').take len) ((c :: cs').drop len)
            (quoteScan fuel true ((c :: cs').drop len)) htok hbnd (ih _ _ hdec)
          rw [List.take_append_drop] at hstep
          exact hstep

/-- Claim C5: over every input string, `quote_currency` rewrites the
input by wrapping word-boundary-delimited tokens of the source pattern in
double quotes iff they contain a digit or a period, keeping every other
character unchanged and never skipping a delimited token (the `QuoteSub`
specification); moreover on an isolated token the output is exactly the
conditionally-wrapped token, text without uppercase letters is left
unchanged, and the spec round-trip examples hold. -/
theorem claim_C5_quote_currency_tokens :
    (∀ s : String, QuoteSub false s.data (quote_currency s).data) ∧
    (∀ (u : Char) (mid : List Char) (e : Char),
      isCurrStart u = true → (∀ c ∈ mid, isCurrMid c = true) → mid.length ≤ 10 →
      isCurrEnd e = true →
      quote_currency (String.mk (u :: (mid ++ [e]))) =
        if (u :: (mid ++ [e])).any (fun c => c.isDigit || c == '.')
        then String.mk ('"' :: ((u :: (mid ++ [e])) ++ ['"']))
        else String.mk (u :: (mid ++ [e]))) ∧
    (∀ s : String, (∀ c ∈ s.data, isCurrStart c = false) → quote_currency s = s) ∧
    quote_currency "10 USD" = "10 USD" ∧
    quote_currency "5 B2C3" = "5 \"B2C3\"" := by
  refine ⟨fun s => ?_, fun u mid e hu hmid hlen he => ?_, fun s h => ?_,
    by decide, by decide⟩
  · exact quoteScan_QuoteSub s.data.length false s.data (Nat.le_refl _)
  · rw [quote_currency_token u mid e hu hmid hlen he]
    unfold quote
    cases hany : (u :: (mid ++ [e])).any (fun c => c.isDigit || c == '.') <;>
      simp [hany]
  · obtain ⟨data⟩ := s
    unfold quote_currency
    rw [quoteScan_id_of_no_start _ _ _ h]

/-- Witness for claim C5 at the token `B2C3` (quoted: it contains digits)
and at a string with no uppercase letters (unchanged). -/
theorem claim_C5_witness :
    quote_currency (String.mk ('B' :: (['2', 'C'] ++ ['3']))) =
      String.mk ('"' :: (('B' :: (['2', 'C'] ++ ['3'])) ++ ['"'])) ∧
    quote_currency "lower text 123" = "lower text 123" := by
  constructor
  · have h := claim_C5_quote_currency_tokens.2.1 'B' ['2', 'C'] '3' (by decide) (by decide)
      (by decide) (by decide)
    rw [h]
    decide
  · exact claim_C5_quote_currency_tokens.2.2.1 "lower text 123" (by decide)

/-- Claim C6 counterexample: the currency-quoting transform is not
idempotent; requoting `"A1"` (already quoted because it contains a digit)
wraps the token in a second pair of quotes. -/
theorem claim_C6_counterexample :
    quote_currency (quote_currency "A1") ≠ quote_currency "A1" := by decide

/-- Claim C6 (amended): `quote_currency` is idempotent on strings that
contain no digits and no periods — on such strings no token is ever
quoted, so the transform is the identity and hence idempotent.  On the
full string domain idempotence fails (see the counterexample). -/
theorem claim_C6_idempotent_without_digits_periods :
    ∀ s : String, (∀ c ∈ s.data, (c.isDigit || c == '.') = false) →
      quote_currency (quote_currency s) = quote_currency s := by
  intro s h
  rw [quote_currency_fixed_of_no_digit_dot s h]
  exact quote_currency_fixed_of_no_digit_dot s h

/-- Witness for the amended claim C6 at the digit-free string `USD`. -/
theorem claim_C6_witness :
    quote_currency (quote_currency "USD") = quote_currency "USD" :=
  claim_C6_idempotent_without_digits_periods "USD" (by decide)

end ConvertReports
